import Mathlib

/-!
Verification of the hindsight retrieval core and the memora CLI client.

The repository ships two source files: the public interface of the search
module (`hindsight_api/engine/search/__init__.py`) and the CLI HTTP client
(`memora_cli/main.py`).  The bodies of the search-module strategies
(`retrieval.py`, `graph_retrieval.py`, `reranking.py`) are re-exported by the
interface file but are not part of the sources, so those operations are
modelled from the specification; each such definition says so in its doc
comment.  The CLI functions are embedded directly from `memora_cli/main.py`.
-/

namespace Hindsight

/-! ## Generic association-list merge (shared by fusion, BFS and PPR) -/

/-- Insert the pair `(k, v)` into an association list, combining with the
existing entry at key `k` through `m` if one is present. -/
def upsert {β : Type} (m : β → β → β) (k : Nat) (v : β) :
    List (Nat × β) → List (Nat × β)
  | [] => [(k, v)]
  | (k', v') :: rest =>
      if k' = k then (k', m v' v) :: rest else (k', v') :: upsert m k v rest

/-- Fold a batch of pairs into an accumulator association list with `upsert`. -/
def upsertAll {β : Type} (m : β → β → β) (acc items : List (Nat × β)) :
    List (Nat × β) :=
  items.foldl (fun a p => upsert m p.1 p.2 a) acc

/-- The keys of an association list. -/
def keysOf {β : Type} (l : List (Nat × β)) : List Nat :=
  l.map Prod.fst

/-! ## Stable insertion sort (used by the rerankers and the orchestrator) -/

/-- Insert `x` into a list, placing it before the first element `y` with
`le x y`. -/
def insertSorted {α : Type} (le : α → α → Bool) (x : α) : List α → List α
  | [] => [x]
  | y :: ys => if le x y then x :: y :: ys else y :: insertSorted le x ys

/-- Insertion sort with respect to the boolean relation `le`. -/
def sortBy {α : Type} (le : α → α → Bool) : List α → List α
  | [] => []
  | x :: xs => insertSorted le x (sortBy le xs)

/-! ## Retrieval core data model

Modelled from the spec: the bodies of `retrieval.py`, `graph_retrieval.py` and
`reranking.py` are re-exported by `search/__init__.py` but are not among the
sources, so the data model of spec section 3 and the operations of section 4
are embedded from the specification text. -/

/-- Fact type enum: world, agent, opinion (spec section 3, Memory Fact). -/
inductive FactType
  | world
  | agent
  | opinion
  deriving DecidableEq

/-- The four retrieval strategies of the orchestrator (spec section 2). -/
inductive Strategy
  | semantic
  | lexical
  | graph
  | temporal
  deriving DecidableEq

/-- A per-query candidate produced by one retrieval strategy (spec section 3):
fact identifier, strategy tag and raw strategy score, together with the fact
attributes the pipeline needs (type, timestamp). -/
structure Candidate where
  factId : Nat
  factType : FactType
  timestamp : Int
  strategy : Strategy
  score : ℚ
  deriving DecidableEq

/-- A fused candidate (spec section 3): fact identifier, sparse per-strategy
score map, fused score, and the final score assigned by the reranker. -/
structure FusedCandidate where
  factId : Nat
  factType : FactType
  timestamp : Int
  semScore : Option ℚ
  lexScore : Option ℚ
  graScore : Option ℚ
  temScore : Option ℚ
  fusedScore : ℚ
  finalScore : ℚ
  deriving DecidableEq

/-- Modelled from the spec: each strategy's raw scores are min-max normalized
within that strategy's result set before fusion (spec section 4.1).  When all
scores coincide the normalized score is 1. -/
def minMaxNormalize (l : List Candidate) : List Candidate :=
  match l.map Candidate.score with
  | [] => []
  | s :: ss =>
      let mn := ss.foldl min s
      let mx := ss.foldl max s
      if mx = mn then l.map (fun c => { c with score := 1 })
      else l.map (fun c => { c with score := (c.score - mn) / (mx - mn) })

/-- The fused-candidate record a single candidate gives rise to: its score is
entered into the slot of its own strategy. -/
def initFused (c : Candidate) : FusedCandidate where
  factId := c.factId
  factType := c.factType
  timestamp := c.timestamp
  semScore := if c.strategy = Strategy.semantic then some c.score else none
  lexScore := if c.strategy = Strategy.lexical then some c.score else none
  graScore := if c.strategy = Strategy.graph then some c.score else none
  temScore := if c.strategy = Strategy.temporal then some c.score else none
  fusedScore := 0
  finalScore := 0

/-- Keep the first entry of a sparse score slot, fall back to the second. -/
def mergeOpt (x y : Option ℚ) : Option ℚ :=
  match x with
  | some a => some a
  | none => y

/-- Merge two fused-candidate records sharing a fact identifier by combining
their sparse per-strategy score maps (spec section 3, Fused Candidate). -/
def mergeFused (a b : FusedCandidate) : FusedCandidate where
  factId := a.factId
  factType := a.factType
  timestamp := a.timestamp
  semScore := mergeOpt a.semScore b.semScore
  lexScore := mergeOpt a.lexScore b.lexScore
  graScore := mergeOpt a.graScore b.graScore
  temScore := mergeOpt a.temScore b.temScore
  fusedScore := 0
  finalScore := 0

/-- Modelled from the spec: fusion merges candidates by fact identifier
(spec section 4.1; `retrieval.py` is missing from the sources). -/
def fuseCandidates (cands : List Candidate) : List (Nat × FusedCandidate) :=
  upsertAll mergeFused [] (cands.map (fun c => (c.factId, initFused c)))

/-- Injectable fusion configuration (spec section 9: the fusion weighting and
the rerank slice size K are tuning parameters, not structural invariants). -/
structure FusionConfig where
  wSem : ℚ
  wLex : ℚ
  wGra : ℚ
  wTem : ℚ
  rerankK : Nat

/-- A sparse score read as a number: a strategy that did not surface the fact
contributes no score. -/
def optScore (o : Option ℚ) : ℚ := o.getD 0

/-- Modelled from the spec: fused score = weighted sum of per-strategy
normalized scores (spec section 4.1). -/
def weightedScore (cfg : FusionConfig) (f : FusedCandidate) : ℚ :=
  cfg.wSem * optScore f.semScore + cfg.wLex * optScore f.lexScore +
    cfg.wGra * optScore f.graScore + cfg.wTem * optScore f.temScore

/-- Write the fused score into a fused candidate; before reranking the final
score equals the fused score. -/
def applyFusedScore (cfg : FusionConfig) (f : FusedCandidate) : FusedCandidate :=
  { f with fusedScore := weightedScore cfg f, finalScore := weightedScore cfg f }

/-- Lexicographic comparison step: strictly smaller in the first component, or
equal and smaller-or-equal by the rest. -/
def cmpB {α : Type} [LinearOrder α] (x y : α) (rest : Bool) : Bool :=
  decide (x < y) || (decide (x = y) && rest)

/-- Ranking order (spec section 4.1): higher final score first; ties broken by
higher semantic score, then more recent timestamp, then ascending fact
identifier. -/
def rankLE (a b : FusedCandidate) : Bool :=
  cmpB b.finalScore a.finalScore
    (cmpB (optScore b.semScore) (optScore a.semScore)
      (cmpB b.timestamp a.timestamp (decide (a.factId ≤ b.factId))))

/-- Modelled from the spec: the heuristic reranker is a cheap deterministic
function of already-available signals (spec section 4.3; `reranking.py` is
missing from the sources).  The exact weighting is a tuning detail. -/
def heuristicRescore (f : FusedCandidate) : FusedCandidate :=
  { f with finalScore :=
      f.fusedScore + optScore f.semScore / 2 + optScore f.lexScore / 4 }

/-- Per-candidate cross-encoder scoring: a backend answer replaces the final
score; a failed or timed-out backend call (`none`) keeps the pre-rerank fused
score (spec section 4.3, graceful degradation). -/
def crossEncoderUpdate (backend : Nat → Option ℚ) (f : FusedCandidate) :
    FusedCandidate :=
  { f with finalScore :=
      match backend f.factId with
      | some s => s
      | none => f.fusedScore }

/-- Modelled from the spec: CrossEncoderReranker.rerank scores each candidate
with the backend, keeps the pre-rerank fused score for candidates whose
backend call failed, re-sorts, and never fails as a whole (spec section 4.3;
`reranking.py` is missing from the sources). -/
def crossEncoderRerank (backend : Nat → Option ℚ)
    (cands : List FusedCandidate) : List FusedCandidate :=
  sortBy rankLE (cands.map (crossEncoderUpdate backend))

/-- The closed set of reranking strategies (spec section 9): heuristic, or
cross-encoder with a per-fact scoring backend that may fail per candidate. -/
inductive RerankerChoice
  | heuristic
  | crossEncoder (backend : Nat → Option ℚ)

/-- Apply the chosen reranker: rescore every candidate, then re-sort. -/
def applyReranker : RerankerChoice → List FusedCandidate → List FusedCandidate
  | RerankerChoice.heuristic, cands => sortBy rankLE (cands.map heuristicRescore)
  | RerankerChoice.crossEncoder backend, cands => crossEncoderRerank backend cands

/-- The joined per-strategy results of the four concurrent workers: `none`
means the strategy failed or timed out and contributes zero candidates. -/
structure StrategyOutcomes where
  sem : Option (List Candidate)
  lex : Option (List Candidate)
  gra : Option (List Candidate)
  tem : Option (List Candidate)

/-- A retrieval request (spec section 4.1 contract). -/
structure RetrievalRequest where
  factTypes : List FactType
  budget : Nat
  maxResults : Nat

/-- Retrieval error taxonomy (spec section 7). -/
inductive RetrievalError
  | invalidBudget
  | totalRetrievalFailure
  deriving DecidableEq

/-- All four strategies failed or timed out. -/
def allFailed (o : StrategyOutcomes) : Bool :=
  o.sem.isNone && o.lex.isNone && o.gra.isNone && o.tem.isNone

/-- Modelled from the spec: the fact-type filter is applied at the strategy
boundary, before fusion (spec section 4.1). -/
def typeFilter (req : RetrievalRequest) (l : List Candidate) : List Candidate :=
  l.filter (fun c => decide (c.factType ∈ req.factTypes))

/-- One strategy's contribution to fusion: its candidates, fact-type filtered
at the strategy boundary, then min-max normalized within the strategy. -/
def strategyInput (req : RetrievalRequest) (o : Option (List Candidate)) :
    List Candidate :=
  minMaxNormalize (typeFilter req (o.getD []))

/-- The concatenated, filtered and normalized candidates of all four
strategies — what fusion consumes. -/
def fusionInput (req : RetrievalRequest) (o : StrategyOutcomes) : List Candidate :=
  strategyInput req o.sem ++ strategyInput req o.lex ++
    strategyInput req o.gra ++ strategyInput req o.tem

/-- The fused candidate set of a call: candidates merged by fact identifier,
each carrying its weighted fused score. -/
def fusedSet (cfg : FusionConfig) (req : RetrievalRequest)
    (o : StrategyOutcomes) : List FusedCandidate :=
  ((fuseCandidates (fusionInput req o)).map Prod.snd).map (applyFusedScore cfg)

/-- The full final ranking of a call, before truncation to maxResults: the
fused set is ranked, the reranker is invoked on the top-K slice, and the
remainder keeps its fused-score order (spec section 4.1). -/
def rankedAll (cfg : FusionConfig) (req : RetrievalRequest)
    (o : StrategyOutcomes) (rer : RerankerChoice) : List FusedCandidate :=
  let ranked := sortBy rankLE (fusedSet cfg req o)
  applyReranker rer (ranked.take cfg.rerankK) ++ ranked.drop cfg.rerankK

/-- Per-call trace (spec section 3): degraded markers for each strategy and
the number of results returned. -/
structure Trace where
  degradedSem : Bool
  degradedLex : Bool
  degradedGra : Bool
  degradedTem : Bool
  resultsReturned : Nat
  deriving DecidableEq

/-- Build the trace of a call: a strategy that contributed no outcome is
recorded as degraded. -/
def mkTrace (o : StrategyOutcomes) (n : Nat) : Trace where
  degradedSem := o.sem.isNone
  degradedLex := o.lex.isNone
  degradedGra := o.gra.isNone
  degradedTem := o.tem.isNone
  resultsReturned := n

/-- Modelled from the spec: the parallel retrieval orchestrator
`retrieve_parallel` (spec section 4.1; `retrieval.py` is missing from the
sources).  Caller-input validation fails immediately; the call fails with
TotalRetrievalFailure exactly when all four strategies failed; otherwise the
fused, reranked and truncated result list is returned with the trace. -/
def retrieve_parallel (cfg : FusionConfig) (req : RetrievalRequest)
    (o : StrategyOutcomes) (rer : RerankerChoice) :
    Except RetrievalError (List FusedCandidate × Trace) :=
  if req.budget = 0 then Except.error RetrievalError.invalidBudget
  else if allFailed o then Except.error RetrievalError.totalRetrievalFailure
  else
    let results := (rankedAll cfg req o rer).take req.maxResults
    Except.ok (results, mkTrace o results.length)

/-! ## Graph retrieval (spec section 4.2) -/

/-- The memory graph as the core sees it (spec section 3): a read-only
directed graph over fact identifiers with association weights. -/
structure MemoryGraph where
  neighbors : Nat → List (Nat × ℚ)

/-- The additive activation contributions of one BFS round: every edge from
the frontier to a node outside `blocked` contributes its weight, and
contributions to the same node accumulate (spec section 4.2). -/
def roundContribs (g : MemoryGraph) (frontier blocked : List Nat) :
    List (Nat × ℚ) :=
  upsertAll (fun a b => a + b) []
    (((frontier.map g.neighbors).flatten).filter (fun p => decide (p.1 ∉ blocked)))

/-- The BFS round loop: each round visits the unvisited neighbors of the
current frontier, clamped so that the total number of visited nodes never
exceeds the budget; it halts when the frontier is exhausted or no budget
remains.  The fuel argument only bounds the recursion; `budget` rounds always
suffice because every executed round visits at least one node. -/
def bfsLoop (g : MemoryGraph) (budget : Nat) :
    Nat → List Nat → List Nat → List (Nat × ℚ) → List (Nat × ℚ)
  | 0, _, _, act => act
  | fuel + 1, frontier, blocked, act =>
      if (roundContribs g frontier blocked).take (budget - act.length) = []
      then act
      else bfsLoop g budget fuel
        (keysOf ((roundContribs g frontier blocked).take (budget - act.length)))
        (blocked ++
          keysOf ((roundContribs g frontier blocked).take (budget - act.length)))
        (act ++ (roundContribs g frontier blocked).take (budget - act.length))

/-- Modelled from the spec: `BFSGraphRetriever.traverse` (spec section 4.2;
`graph_retrieval.py` is missing from the sources).  Explores outward from the
seed set in rounds; the budget is the maximum total number of nodes visited;
seeds themselves are not visited (the spec scenario with budget 2 visits
exactly the two neighbors of the single seed). -/
def bfsTraverse (g : MemoryGraph) (seeds : List Nat) (budget : Nat) :
    List (Nat × ℚ) :=
  bfsLoop g budget budget seeds.dedup seeds.dedup []

/-- Budget consumed by a BFS traversal: one unit per visited node. -/
def bfsConsumed (g : MemoryGraph) (seeds : List Nat) (budget : Nat) : Nat :=
  (bfsTraverse g seeds budget).length

/-- The `total_activated` value a BFS traversal reports in the trace: the
number of node identifiers visited (spec section 4.2). -/
def bfsTotalActivated (g : MemoryGraph) (seeds : List Nat) (budget : Nat) : Nat :=
  (bfsTraverse g seeds budget).length

/-- PPR tuning parameters: restart probability and convergence tolerance. -/
structure PPRConfig where
  alpha : ℚ
  tol : ℚ

/-- Total outgoing edge weight of a node. -/
def outWeight (g : MemoryGraph) (u : Nat) : ℚ :=
  ((g.neighbors u).map Prod.snd).sum

/-- Push a node's walk mass along its outgoing edges, proportionally to edge
weight; a node without outgoing weight pushes nothing. -/
def pushFrom (g : MemoryGraph) (u : Nat) (mass : ℚ) : List (Nat × ℚ) :=
  let w := outWeight g u
  if w = 0 then []
  else (g.neighbors u).map (fun p => (p.1, mass * p.2 / w))

/-- The uniform restart distribution over the seed set, scaled by `mass`;
empty when there are no seeds (spec section 4.2). -/
def uniformRestart (seeds : List Nat) (mass : ℚ) : List (Nat × ℚ) :=
  seeds.dedup.map (fun s => (s, mass / (seeds.dedup.length : ℚ)))

/-- One random-walk-with-restart iteration: push the damped mass of every
scored node along its edges and add the restart mass on the seeds. -/
def pprStep (g : MemoryGraph) (cfg : PPRConfig) (seeds : List Nat)
    (cur : List (Nat × ℚ)) : List (Nat × ℚ) :=
  let pushed := upsertAll (fun a b => a + b) []
    ((cur.map (fun p => pushFrom g p.1 ((1 - cfg.alpha) * p.2))).flatten)
  upsertAll (fun a b => a + b) pushed (uniformRestart seeds cfg.alpha)

/-- Total absolute score difference between two score maps. -/
def scoreDiff (a b : List (Nat × ℚ)) : ℚ :=
  ((upsertAll (fun x y => x + y) a (b.map (fun p => (p.1, -p.2)))).map
    (fun p => |p.2|)).sum

/-- The PPR iteration loop: iterate until the scores converge within the
tolerance or the iteration cap (bounded by the budget) is reached, counting
the iterations actually taken. -/
def pprLoop (g : MemoryGraph) (cfg : PPRConfig) (seeds : List Nat) :
    Nat → List (Nat × ℚ) → List (Nat × ℚ) × Nat
  | 0, cur => (cur, 0)
  | fuel + 1, cur =>
      if scoreDiff (pprStep g cfg seeds cur) cur ≤ cfg.tol then (cur, 0)
      else ((pprLoop g cfg seeds fuel (pprStep g cfg seeds cur)).1,
            (pprLoop g cfg seeds fuel (pprStep g cfg seeds cur)).2 + 1)

/-- Modelled from the spec: the Personalized-PageRank graph retriever (spec
section 4.2; `graph_retrieval.py` is missing from the sources).  Starts from
the uniform distribution over the seeds and iterates until convergence or the
budget-bounded iteration cap; returns the scores and the consumed iteration
count.  Nodes never reached by any walk are absent from the result. -/
def pprTraverse (g : MemoryGraph) (cfg : PPRConfig) (seeds : List Nat)
    (budget : Nat) : List (Nat × ℚ) × Nat :=
  pprLoop g cfg seeds budget (uniformRestart seeds 1)

/-- The `total_activated` value a PPR traversal reports: the size of its walk
set (spec section 4.2). -/
def pprTotalActivated (g : MemoryGraph) (cfg : PPRConfig) (seeds : List Nat)
    (budget : Nat) : Nat :=
  (pprTraverse g cfg seeds budget).1.length

/-- One expansion step of the reachability closure: a node set together with
all its out-neighbors. -/
def expandOnce (g : MemoryGraph) (l : List Nat) : List Nat :=
  (l ++ (l.map (fun u => keysOf (g.neighbors u))).flatten).dedup

/-- The set of nodes reachable from the seed set in at most `k` expansion
steps. -/
def reachClosure (g : MemoryGraph) (seeds : List Nat) : Nat → List Nat
  | 0 => seeds.dedup
  | k + 1 => expandOnce g (reachClosure g seeds k)

/-! ## Strategy registry and the module interface -/

/-- The closed set of graph-retrieval strategies (spec section 9). -/
inductive GraphRetrieverChoice
  | bfs
  | ppr (cfg : PPRConfig)

/-- Process-wide default strategy instances (spec section 4.4). -/
structure StrategyRegistry where
  defaultGraphRetriever : GraphRetrieverChoice
  defaultReranker : RerankerChoice

/-- Modelled from the spec: the administrative setter replaces the
process-wide default graph retriever for subsequent calls (spec section 4.4;
`retrieval.py` is missing from the sources). -/
def set_default_graph_retriever (s : GraphRetrieverChoice)
    (r : StrategyRegistry) : StrategyRegistry :=
  { r with defaultGraphRetriever := s }

/-- Modelled from the spec: read the process-wide default graph retriever. -/
def get_default_graph_retriever (r : StrategyRegistry) : GraphRetrieverChoice :=
  r.defaultGraphRetriever

/-- A call site that passes no explicit override uses the registry default. -/
def resolveGraphRetriever (override : Option GraphRetrieverChoice)
    (r : StrategyRegistry) : GraphRetrieverChoice :=
  override.getD r.defaultGraphRetriever

/-- The `__all__` export list of `hindsight_api/engine/search/__init__.py`
(lines 18 to 25 of the source file) — the public interface of the search
module. -/
def searchModuleExports : List String :=
  ["retrieve_parallel", "get_default_graph_retriever",
   "set_default_graph_retriever", "GraphRetriever", "BFSGraphRetriever",
   "CrossEncoderReranker"]

end Hindsight

namespace MemoraCli

/-! ## The CLI HTTP client (`memora_cli/main.py`) -/

/-- A decoded JSON value, as `response.json()` produces it. -/
inductive Json where
  | null
  | bool (b : Bool)
  | num (q : ℚ)
  | str (s : String)
  | arr (elems : List Json)
  | obj (fields : List (String × Json))

/-- Python truthiness of a decoded JSON value: `None`, `False`, `0`, the empty
string, the empty list and the empty dict are falsy. -/
def truthy : Json → Bool
  | Json.null => false
  | Json.bool b => b
  | Json.num q => decide (q ≠ 0)
  | Json.str s => decide (s ≠ "")
  | Json.arr [] => false
  | Json.arr (_ :: _) => true
  | Json.obj [] => false
  | Json.obj (_ :: _) => true

/-- Dict field lookup (Python dict keys are unique, so the association list is
read front to back). -/
def lookupField (k : String) : List (String × Json) → Option Json
  | [] => none
  | (k', v) :: rest => if k' = k then some v else lookupField k rest

/-- Python `==` between a string and a JSON value: only equal strings
compare equal. -/
def isStr (s : String) : Json → Bool
  | Json.str t => decide (t = s)
  | _ => false

/-- Substring test, as Python `needle in haystack` on strings. -/
def containsSub (needle hay : String) : Bool :=
  decide ((hay.splitOn needle).length ≠ 1)

/-- Result of the success-field check. -/
inductive SuccessCheck
  | proceed
  | exitOne
  deriving DecidableEq

/-- The success-field check of `make_api_request` (main.py lines 76 to 81)
with Python's dynamic typing made explicit: on a dict, a present falsy
`success` value exits with code 1; on a list, `"success" in data` is element
membership, and a hit makes the following `data["success"]` raise TypeError,
caught by the generic handler which also exits 1; on a string, `in` is the
substring test with the same TypeError afterwards; on any non-container,
`"success" in data` itself raises TypeError, again exiting 1. -/
def successGate : Json → SuccessCheck
  | Json.obj fields =>
      match lookupField "success" fields with
      | some v => if truthy v then SuccessCheck.proceed else SuccessCheck.exitOne
      | none => SuccessCheck.proceed
  | Json.arr elems =>
      if elems.any (isStr "success") then SuccessCheck.exitOne
      else SuccessCheck.proceed
  | Json.str t =>
      if containsSub "success" t then SuccessCheck.exitOne
      else SuccessCheck.proceed
  | Json.null => SuccessCheck.exitOne
  | Json.bool _ => SuccessCheck.exitOne
  | Json.num _ => SuccessCheck.exitOne

/-- The observable outcome of the one HTTP call a `make_api_request`
invocation performs: connection failure, timeout, any other transport
exception, or a response with its status and (when it parses as JSON) its
decoded body. -/
inductive HttpOutcome where
  | connectError
  | timeout
  | otherError
  | response (status : Nat) (body : Option Json)

/-- The method dispatch of main.py lines 61 to 67: only GET and POST are
supported, compared case-insensitively through `method.upper()`. -/
def methodOk (m : String) : Bool :=
  decide (m.toUpper = "GET") || decide (m.toUpper = "POST")

/-- httpx `raise_for_status` passes exactly the successful (2xx) statuses. -/
def is2xx (status : Nat) : Bool :=
  decide (200 ≤ status) && decide (status < 300)

/-- Shallow embedding of `make_api_request` (main.py lines 35 to 107).  The
result is the decoded body on success and the `typer.Exit` code otherwise.
An unsupported method exits 1 before any request; a non-2xx status raises
`HTTPStatusError`, handled by exiting 1; connection errors, timeouts, JSON
decoding failures and every other exception (including the re-raised
`typer.Exit`, a `RuntimeError` subclass caught by the final generic handler)
also exit 1; a parsed body whose `success` field is present and falsy exits 1
as well. -/
def make_api_request (method : String) (outcome : HttpOutcome) :
    Except Nat Json :=
  if methodOk method then
    match outcome with
    | HttpOutcome.connectError => Except.error 1
    | HttpOutcome.timeout => Except.error 1
    | HttpOutcome.otherError => Except.error 1
    | HttpOutcome.response status body =>
        if is2xx status then
          match body with
          | none => Except.error 1
          | some data =>
              match successGate data with
              | SuccessCheck.proceed => Except.ok data
              | SuccessCheck.exitOne => Except.error 1
        else Except.error 1
  else Except.error 1

/-- Position of the last occurrence of `c` in the character list, if any. -/
def lastIdxOf (c : Char) : List Char → Option Nat
  | [] => none
  | x :: xs =>
      match lastIdxOf c xs with
      | some i => some (i + 1)
      | none => if x = c then some 0 else none

/-- Python `pathlib.Path.suffix` on a file's final name component: the part
from the last dot on, empty when the dot is the first character of the name or
the name has no dot or ends in a dot. -/
def pySuffix (name : String) : String :=
  let cs := name.toList
  match lastIdxOf '.' cs with
  | none => ""
  | some i => if 0 < i ∧ i < cs.length - 1 then String.mk (cs.drop i) else ""

/-- Python `str.lower()` restricted to its ASCII behaviour, the relevant case
for file extensions. -/
def lowerStr (s : String) : String :=
  String.mk (s.data.map Char.toLower)

/-- The filesystem object a `put-files` path argument names: missing, a
single file with its final name component, or a directory with the name
components of the files its glob traversal sees. -/
inductive FsEntry where
  | missing
  | file (name : String)
  | dir (files : List String)

/-- Phase result of the file-collection part of `put_files` (main.py lines
400 to 423): a missing path exits 1; a single file with an unsupported
extension prints a warning and exits 0; a directory without matching files
prints a notice and exits 0; otherwise the collected files proceed to the
upload loop. -/
inductive PutFilesPhase where
  | errorNoExist
  | skipUnsupported
  | noFilesFound
  | proceed (files : List String)
  deriving DecidableEq

/-- Shallow embedding of the collection phase of `put_files` (main.py lines
400 to 423).  A single file passes when its `Path.suffix`, lowercased, is
`.txt` or `.md`; a directory is globbed with `*.txt` and `*.md` patterns
(matched here on the final name component, case-sensitively, as
`pathlib.Path.glob` does on Linux). -/
def put_files_collect : FsEntry → PutFilesPhase
  | FsEntry.missing => PutFilesPhase.errorNoExist
  | FsEntry.file name =>
      if lowerStr (pySuffix name) = ".txt" ∨ lowerStr (pySuffix name) = ".md"
      then PutFilesPhase.proceed [name]
      else PutFilesPhase.skipUnsupported
  | FsEntry.dir files =>
      let collected := files.filter (fun n => n.endsWith ".txt") ++
        files.filter (fun n => n.endsWith ".md")
      if collected = [] then PutFilesPhase.noFilesFound
      else PutFilesPhase.proceed collected

/-- The observable outcome of `put_files` up to the upload loop: the early
exit code if the command stops before uploading, and the number of API
requests issued (one per collected file; zero on every early exit). -/
def put_files_run (e : FsEntry) : Option Nat × Nat :=
  match put_files_collect e with
  | PutFilesPhase.errorNoExist => (some 1, 0)
  | PutFilesPhase.skipUnsupported => (some 0, 0)
  | PutFilesPhase.noFilesFound => (some 0, 0)
  | PutFilesPhase.proceed files => (none, files.length)

end MemoraCli

namespace Hindsight

theorem mem_upsert {β : Type} (m : β → β → β) (k : Nat) (v : β)
    (l : List (Nat × β)) (a : Nat) :
    a ∈ keysOf (upsert m k v l) ↔ a ∈ keysOf l ∨ a = k := by
  induction l with
  | nil => simp [upsert, keysOf]
  | cons p rest ih =>
      obtain ⟨k', v'⟩ := p
      by_cases h : k' = k
      · subst h
        simp [upsert, keysOf]
        tauto
      · simp only [upsert, if_neg h, keysOf, List.map_cons, List.mem_cons]
        rw [show (List.map Prod.fst (upsert m k v rest)) = keysOf (upsert m k v rest) from rfl]
        rw [ih]
        tauto

theorem nodup_upsert {β : Type} (m : β → β → β) (k : Nat) (v : β)
    (l : List (Nat × β)) (h : (keysOf l).Nodup) :
    (keysOf (upsert m k v l)).Nodup := by
  induction l with
  | nil => simp [upsert, keysOf]
  | cons p rest ih =>
      obtain ⟨k', v'⟩ := p
      simp only [keysOf, List.map_cons, List.nodup_cons] at h
      by_cases hk : k' = k
      · subst hk
        simpa [upsert, keysOf, List.nodup_cons] using h
      · simp only [upsert, if_neg hk, keysOf, List.map_cons, List.nodup_cons]
        refine ⟨fun hmem => ?_, ih h.2⟩
        rw [show (List.map Prod.fst (upsert m k v rest)) = keysOf (upsert m k v rest) from rfl] at hmem
        rcases (mem_upsert m k v rest k').1 hmem with h1 | h1
        · exact h.1 h1
        · exact hk h1

theorem pred_upsert {β : Type} (m : β → β → β) (P : Nat → β → Prop)
    (hm : ∀ k a b, P k a → P k b → P k (m a b))
    (k : Nat) (v : β) (hv : P k v) (l : List (Nat × β))
    (hl : ∀ p ∈ l, P p.1 p.2) :
    ∀ p ∈ upsert m k v l, P p.1 p.2 := by
  induction l with
  | nil =>
      intro p hp
      simp only [upsert, List.mem_singleton] at hp
      subst hp; exact hv
  | cons q rest ih =>
      obtain ⟨k', v'⟩ := q
      have hq : P k' v' := hl (k', v') (by simp)
      have hrest : ∀ p ∈ rest, P p.1 p.2 := fun r hr => hl r (List.mem_cons_of_mem _ hr)
      intro p hp
      by_cases hk : k' = k
      · subst hk
        simp [upsert] at hp
        rcases hp with hp | hp
        · subst hp
          exact hm _ _ _ hq hv
        · exact hrest _ hp
      · simp [upsert, hk] at hp
        rcases hp with hp | hp
        · subst hp; exact hq
        · exact ih hrest _ hp

theorem nodup_upsertAll {β : Type} (m : β → β → β) (items acc : List (Nat × β))
    (h : (keysOf acc).Nodup) :
    (keysOf (upsertAll m acc items)).Nodup := by
  induction items generalizing acc with
  | nil => simpa [upsertAll] using h
  | cons p rest ih =>
      simp only [upsertAll, List.foldl_cons]
      exact ih _ (nodup_upsert _ _ _ _ h)

theorem mem_upsertAll {β : Type} (m : β → β → β) (items acc : List (Nat × β))
    (a : Nat) :
    a ∈ keysOf (upsertAll m acc items) ↔ a ∈ keysOf acc ∨ a ∈ keysOf items := by
  induction items generalizing acc with
  | nil => simp [upsertAll, keysOf]
  | cons p rest ih =>
      simp only [upsertAll, List.foldl_cons]
      rw [show (List.foldl (fun a p => upsert m p.1 p.2 a) (upsert m p.1 p.2 acc) rest)
            = upsertAll m (upsert m p.1 p.2 acc) rest from rfl]
      rw [ih, mem_upsert]
      simp [keysOf]
      tauto

theorem pred_upsertAll {β : Type} (m : β → β → β) (P : Nat → β → Prop)
    (hm : ∀ k a b, P k a → P k b → P k (m a b))
    (items acc : List (Nat × β))
    (hacc : ∀ p ∈ acc, P p.1 p.2) (hitems : ∀ p ∈ items, P p.1 p.2) :
    ∀ p ∈ upsertAll m acc items, P p.1 p.2 := by
  induction items generalizing acc with
  | nil => simpa [upsertAll] using hacc
  | cons q rest ih =>
      simp only [upsertAll, List.foldl_cons]
      exact ih _ (pred_upsert m P hm _ _ (hitems _ (by simp)) _ hacc)
        (fun p hp => hitems _ (List.mem_cons_of_mem _ hp))

theorem perm_insertSorted {α : Type} (le : α → α → Bool) (x : α) (l : List α) :
    (insertSorted le x l).Perm (x :: l) := by
  induction l with
  | nil => simp [insertSorted]
  | cons y ys ih =>
      by_cases h : le x y
      · simp [insertSorted, h]
      · simp only [insertSorted, if_neg h]
        exact (ih.cons y).trans (List.Perm.swap x y ys)

theorem perm_sortBy {α : Type} (le : α → α → Bool) (l : List α) :
    (sortBy le l).Perm l := by
  induction l with
  | nil => simp [sortBy]
  | cons x xs ih =>
      exact (perm_insertSorted le x (sortBy le xs)).trans (ih.cons x)

theorem mem_sortBy {α : Type} (le : α → α → Bool) (l : List α) (a : α) :
    a ∈ sortBy le l ↔ a ∈ l :=
  (perm_sortBy le l).mem_iff

theorem pairwise_insertSorted {α : Type} (le : α → α → Bool)
    (htot : ∀ a b, le a b = true ∨ le b a = true)
    (htrans : ∀ a b c, le a b = true → le b c = true → le a c = true)
    (x : α) (l : List α)
    (h : l.Pairwise (fun a b => le a b = true)) :
    (insertSorted le x l).Pairwise (fun a b => le a b = true) := by
  induction l with
  | nil => simp [insertSorted]
  | cons y ys ih =>
      rcases List.pairwise_cons.1 h with ⟨hy, hys⟩
      by_cases hxy : le x y
      · simp only [insertSorted, if_pos hxy, List.pairwise_cons]
        refine ⟨fun b hb => ?_, hy, hys⟩
        rcases List.mem_cons.1 hb with hb | hb
        · subst hb; exact hxy
        · exact htrans x y b hxy (hy b hb)
      · simp only [insertSorted, if_neg hxy, List.pairwise_cons]
        have hyx : le y x = true := by
          rcases htot x y with h1 | h1
          · exact absurd h1 hxy
          · exact h1
        refine ⟨fun b hb => ?_, ih hys⟩
        rcases List.mem_cons.1 ((perm_insertSorted le x ys).mem_iff.1 hb) with hb | hb
        · subst hb; exact hyx
        · exact hy b hb

theorem pairwise_sortBy {α : Type} (le : α → α → Bool)
    (htot : ∀ a b, le a b = true ∨ le b a = true)
    (htrans : ∀ a b c, le a b = true → le b c = true → le a c = true)
    (l : List α) :
    (sortBy le l).Pairwise (fun a b => le a b = true) := by
  induction l with
  | nil => simp [sortBy]
  | cons x xs ih => exact pairwise_insertSorted le htot htrans x _ ih

/-! ## Fusion lemmas -/

theorem fuse_key_consistent (cands : List Candidate) :
    ∀ p ∈ fuseCandidates cands, p.2.factId = p.1 := by
  apply pred_upsertAll mergeFused (fun k f => f.factId = k)
  · intro k a b ha _
    simpa [mergeFused] using ha
  · intro p hp
    simp at hp
  · intro p hp
    rcases List.mem_map.1 hp with ⟨c, _, rfl⟩
    rfl

theorem fused_keys_nodup (cands : List Candidate) :
    (keysOf (fuseCandidates cands)).Nodup := by
  apply nodup_upsertAll
  simp [keysOf]

/-- C2: for every configuration, request and set of per-strategy candidate
lists, the fused candidate set produced by fusion contains each fact
identifier at most once. -/
theorem fusedSet_factIds_nodup (cfg : FusionConfig) (req : RetrievalRequest)
    (o : StrategyOutcomes) :
    ((fusedSet cfg req o).map FusedCandidate.factId).Nodup := by
  have hcons := fuse_key_consistent (fusionInput req o)
  have heq : (fusedSet cfg req o).map FusedCandidate.factId
      = keysOf (fuseCandidates (fusionInput req o)) := by
    unfold fusedSet keysOf
    rw [List.map_map, List.map_map]
    apply List.map_congr_left
    intro p hp
    simpa [applyFusedScore, Function.comp] using hcons p hp
  rw [heq]
  exact fused_keys_nodup _

/-! ## Registry and interface facts -/

/-- C8 counterexample: the public interface of the search module does not
expose a default-reranker setter — the export list carries the graph-retriever
setter but no reranker counterpart, in either naming convention. -/
theorem no_reranker_setter_export :
    "set_default_graph_retriever" ∈ searchModuleExports ∧
    "set_default_reranker" ∉ searchModuleExports ∧
    "setDefaultReranker" ∉ searchModuleExports := by
  decide

/-- C8 (amended): the public interface exposes the graph-retriever override
pair (`set_default_graph_retriever`, `get_default_graph_retriever`) but no
reranker setter; the setter replaces the process-wide default graph retriever,
which every subsequent call without an explicit override resolves to, while an
explicit override still wins. -/
theorem default_graph_retriever_override :
    "set_default_graph_retriever" ∈ searchModuleExports ∧
    "get_default_graph_retriever" ∈ searchModuleExports ∧
    "set_default_reranker" ∉ searchModuleExports ∧
    (∀ r s, get_default_graph_retriever (set_default_graph_retriever s r) = s) ∧
    (∀ r s, resolveGraphRetriever none (set_default_graph_retriever s r) = s) ∧
    (∀ r s ov, resolveGraphRetriever (some ov) (set_default_graph_retriever s r) = ov) := by
  refine ⟨by decide, by decide, by decide, fun r s => rfl, fun r s => rfl,
    fun r s ov => rfl⟩

/-! ## Orchestrator lemmas -/

theorem retrieve_ok_results (cfg : FusionConfig) (req : RetrievalRequest)
    (o : StrategyOutcomes) (rer : RerankerChoice) (res : List FusedCandidate)
    (tr : Trace) (h : retrieve_parallel cfg req o rer = Except.ok (res, tr)) :
    res = (rankedAll cfg req o rer).take req.maxResults := by
  unfold retrieve_parallel at h
  split at h
  · exact absurd h (by simp)
  · split at h
    · exact absurd h (by simp)
    · simp only [Except.ok.injEq, Prod.mk.injEq] at h
      exact h.1.symm

/-- C1: with a valid budget, the call fails with TotalRetrievalFailure exactly
when all four retrieval strategies failed or timed out; whenever at least one
strategy succeeded the call returns a (possibly empty) ranked result list. -/
theorem retrieve_total_failure_iff (cfg : FusionConfig) (req : RetrievalRequest)
    (o : StrategyOutcomes) (rer : RerankerChoice) (hb : req.budget ≠ 0) :
    (retrieve_parallel cfg req o rer
        = Except.error RetrievalError.totalRetrievalFailure ↔ allFailed o = true) ∧
    (allFailed o = false →
      ∃ res tr, retrieve_parallel cfg req o rer = Except.ok (res, tr)) := by
  unfold retrieve_parallel
  rw [if_neg hb]
  by_cases hf : allFailed o = true
  · rw [if_pos hf]
    refine ⟨⟨fun _ => hf, fun _ => rfl⟩, fun h => ?_⟩
    rw [hf] at h
    cases h
  · rw [if_neg hf]
    refine ⟨⟨fun h => ?_, fun h => absurd h hf⟩, fun _ => ⟨_, _, rfl⟩⟩
    exact absurd h (by simp)

/-- Witness for C1 at a concrete call: a positive budget and one succeeding
strategy yield a successful (here empty) ranked result. -/
theorem retrieve_total_failure_iff_witness :
    ∃ res tr, retrieve_parallel ⟨1, 1, 1, 1, 10⟩ ⟨[FactType.world], 5, 3⟩
      ⟨some [], none, none, none⟩ RerankerChoice.heuristic
      = Except.ok (res, tr) :=
  (retrieve_total_failure_iff ⟨1, 1, 1, 1, 10⟩ ⟨[FactType.world], 5, 3⟩
    ⟨some [], none, none, none⟩ RerankerChoice.heuristic (by decide)).2 rfl

/-- C6: holding the configuration, candidate universe and strategies fixed,
the first n results returned with maxResults = m are exactly the n results
returned with maxResults = n, in the same order, whenever n < m. -/
theorem stable_top_results (cfg : FusionConfig) (ft : List FactType) (b : Nat)
    (o : StrategyOutcomes) (rer : RerankerChoice) (n m : Nat) (hnm : n < m)
    (rsn rsm : List FusedCandidate) (tn tm : Trace)
    (hn : retrieve_parallel cfg ⟨ft, b, n⟩ o rer = Except.ok (rsn, tn))
    (hm : retrieve_parallel cfg ⟨ft, b, m⟩ o rer = Except.ok (rsm, tm)) :
    rsm.take n = rsn := by
  have h1 := retrieve_ok_results cfg ⟨ft, b, n⟩ o rer rsn tn hn
  have h2 := retrieve_ok_results cfg ⟨ft, b, m⟩ o rer rsm tm hm
  have hr : rankedAll cfg ⟨ft, b, m⟩ o rer = rankedAll cfg ⟨ft, b, n⟩ o rer := rfl
  rw [h1, h2, hr, List.take_take]
  have hmin : min n m = n := by omega
  simp [hmin]

/-- Witness for C6 at a concrete call with n = 1 < 2 = m: both calls return
the empty ranked list, and its 1-element front is itself. -/
theorem stable_top_results_witness :
    List.take 1 ([] : List FusedCandidate) = [] :=
  stable_top_results ⟨1, 1, 1, 1, 10⟩ [FactType.world] 5
    ⟨some [], none, none, none⟩ RerankerChoice.heuristic 1 2 (by omega)
    [] [] ⟨false, true, true, true, 0⟩ ⟨false, true, true, true, 0⟩ rfl rfl

/-! ## Fact-type filtering lemmas -/

theorem typeFilter_types (req : RetrievalRequest) (l : List Candidate) :
    ∀ c ∈ typeFilter req l, c.factType ∈ req.factTypes := by
  intro c hc
  have := (List.mem_filter.1 hc).2
  simpa using this

theorem minMaxNormalize_factType (l : List Candidate) :
    ∀ c' ∈ minMaxNormalize l, ∃ c ∈ l, c'.factType = c.factType := by
  intro c' hc'
  unfold minMaxNormalize at hc'
  split at hc'
  · simp at hc'
  · dsimp only at hc'
    split at hc' <;>
    · rcases List.mem_map.1 hc' with ⟨c, hc, rfl⟩
      exact ⟨c, hc, rfl⟩

theorem strategyInput_types (req : RetrievalRequest)
    (ol : Option (List Candidate)) :
    ∀ c ∈ strategyInput req ol, c.factType ∈ req.factTypes := by
  intro c hc
  rcases minMaxNormalize_factType _ c hc with ⟨c0, hc0, heq⟩
  rw [heq]
  exact typeFilter_types req _ c0 hc0

theorem fusionInput_types (req : RetrievalRequest) (o : StrategyOutcomes) :
    ∀ c ∈ fusionInput req o, c.factType ∈ req.factTypes := by
  intro c hc
  unfold fusionInput at hc
  rcases List.mem_append.1 hc with hc | hc
  · rcases List.mem_append.1 hc with hc | hc
    · rcases List.mem_append.1 hc with hc | hc
      · exact strategyInput_types req _ c hc
      · exact strategyInput_types req _ c hc
    · exact strategyInput_types req _ c hc
  · exact strategyInput_types req _ c hc

theorem fusedSet_types (cfg : FusionConfig) (req : RetrievalRequest)
    (o : StrategyOutcomes) :
    ∀ f ∈ fusedSet cfg req o, f.factType ∈ req.factTypes := by
  intro f hf
  unfold fusedSet at hf
  rcases List.mem_map.1 hf with ⟨g, hg, rfl⟩
  rcases List.mem_map.1 hg with ⟨p, hp, rfl⟩
  have hpred := pred_upsertAll mergeFused
    (fun _ g => g.factType ∈ req.factTypes)
    (fun k a b ha _ => by simpa [mergeFused] using ha)
    ((fusionInput req o).map (fun c => (c.factId, initFused c))) []
    (by intro q hq; simp at hq)
    (by
      intro q hq
      rcases List.mem_map.1 hq with ⟨c, hc, rfl⟩
      simpa [initFused] using fusionInput_types req o c hc)
  have := hpred p hp
  simpa [applyFusedScore] using this

theorem applyReranker_factType (rer : RerankerChoice)
    (l : List FusedCandidate) :
    ∀ f ∈ applyReranker rer l, ∃ c ∈ l, f.factType = c.factType := by
  intro f hf
  cases rer with
  | heuristic =>
      rcases List.mem_map.1 ((mem_sortBy _ _ _).1 hf) with ⟨c, hc, rfl⟩
      exact ⟨c, hc, rfl⟩
  | crossEncoder backend =>
      unfold applyReranker crossEncoderRerank at hf
      rcases List.mem_map.1 ((mem_sortBy _ _ _).1 hf) with ⟨c, hc, rfl⟩
      exact ⟨c, hc, rfl⟩

theorem rankedAll_types (cfg : FusionConfig) (req : RetrievalRequest)
    (o : StrategyOutcomes) (rer : RerankerChoice) :
    ∀ f ∈ rankedAll cfg req o rer, f.factType ∈ req.factTypes := by
  intro f hf
  unfold rankedAll at hf
  rcases List.mem_append.1 hf with hf | hf
  · rcases applyReranker_factType rer _ f hf with ⟨c, hc, heq⟩
    rw [heq]
    exact fusedSet_types cfg req o c
      ((mem_sortBy _ _ _).1 (List.take_subset _ _ hc))
  · exact fusedSet_types cfg req o f
      ((mem_sortBy _ _ _).1 (List.drop_subset _ _ hf))

/-- C5: the fact-type filter is exact and is applied before fusion: every
member of the fused candidate set (the fusion output, before reranking)
already has a requested fact type, and so does every returned result of a
successful call. -/
theorem factType_filter_exact (cfg : FusionConfig) (req : RetrievalRequest)
    (o : StrategyOutcomes) (rer : RerankerChoice) :
    (∀ f ∈ fusedSet cfg req o, f.factType ∈ req.factTypes) ∧
    (∀ res tr, retrieve_parallel cfg req o rer = Except.ok (res, tr) →
      ∀ f ∈ res, f.factType ∈ req.factTypes) := by
  refine ⟨fusedSet_types cfg req o, ?_⟩
  intro res tr h f hf
  rw [retrieve_ok_results cfg req o rer res tr h] at hf
  exact rankedAll_types cfg req o rer f (List.take_subset _ _ hf)

/-- Witness for C5 at a concrete call: a world fact surfaced by the semantic
strategy is returned, and its type is in the requested set. -/
theorem factType_filter_exact_witness :
    (heuristicRescore (applyFusedScore ⟨1, 1, 1, 1, 10⟩
        (initFused ⟨1, FactType.world, 0, Strategy.semantic, 1⟩))).factType
      ∈ [FactType.world] :=
  (factType_filter_exact ⟨1, 1, 1, 1, 10⟩ ⟨[FactType.world], 5, 3⟩
      ⟨some [⟨1, FactType.world, 0, Strategy.semantic, 4⟩], none, none, none⟩
      RerankerChoice.heuristic).2
    [heuristicRescore (applyFusedScore ⟨1, 1, 1, 1, 10⟩
        (initFused ⟨1, FactType.world, 0, Strategy.semantic, 1⟩))]
    (mkTrace ⟨some [⟨1, FactType.world, 0, Strategy.semantic, 4⟩],
      none, none, none⟩ 1)
    rfl _ (by simp)

/-! ## Ranking order lemmas -/

theorem cmpB_le_total {α : Type} [LinearOrder α] (x y : α) (r s : Bool)
    (h : r = true ∨ s = true) :
    cmpB x y r = true ∨ cmpB y x s = true := by
  rcases lt_trichotomy x y with hxy | hxy | hxy
  · left; simp [cmpB, hxy]
  · subst hxy
    rcases h with h | h
    · left; simp [cmpB, h]
    · right; simp [cmpB, h]
  · right; simp [cmpB, hxy]

theorem cmpB_le_trans {α : Type} [LinearOrder α] (x y z : α) (r s t : Bool)
    (h : r = true → s = true → t = true)
    (h1 : cmpB x y r = true) (h2 : cmpB y z s = true) :
    cmpB x z t = true := by
  simp only [cmpB, Bool.or_eq_true, Bool.and_eq_true, decide_eq_true_eq]
    at h1 h2 ⊢
  rcases h1 with h1 | ⟨h1e, h1r⟩
  · rcases h2 with h2 | ⟨h2e, _⟩
    · exact Or.inl (lt_trans h1 h2)
    · exact Or.inl (lt_of_lt_of_eq h1 h2e)
  · rcases h2 with h2 | ⟨h2e, h2s⟩
    · exact Or.inl (lt_of_eq_of_lt h1e h2)
    · exact Or.inr ⟨h1e.trans h2e, h h1r h2s⟩

theorem rankLE_total (a b : FusedCandidate) :
    rankLE a b = true ∨ rankLE b a = true := by
  unfold rankLE
  apply cmpB_le_total
  apply cmpB_le_total
  apply cmpB_le_total
  rcases Nat.le_total a.factId b.factId with h | h
  · left; simpa using h
  · right; simpa using h

theorem rankLE_trans (a b c : FusedCandidate)
    (h1 : rankLE a b = true) (h2 : rankLE b c = true) :
    rankLE a c = true := by
  unfold rankLE at h1 h2 ⊢
  refine cmpB_le_trans _ _ _ _ _ _ (fun hbc hab => ?_) h2 h1
  refine cmpB_le_trans _ _ _ _ _ _ (fun hbc2 hab2 => ?_) hbc hab
  refine cmpB_le_trans _ _ _ _ _ _ (fun hbc3 hab3 => ?_) hbc2 hab2
  simp only [decide_eq_true_eq] at hbc3 hab3 ⊢
  exact le_trans hab3 hbc3

theorem rankLE_finalScore (a b : FusedCandidate) (h : rankLE a b = true) :
    b.finalScore ≤ a.finalScore := by
  unfold rankLE cmpB at h
  simp only [Bool.or_eq_true, Bool.and_eq_true, decide_eq_true_eq] at h
  rcases h with h | ⟨h, _⟩
  · exact le_of_lt h
  · exact le_of_eq h

/-- C7: the cross-encoder rerank degrades gracefully per candidate: it is a
permutation of the rescored input (never fails, drops nothing), every
candidate whose backend call answered carries the backend score, every
candidate whose backend call failed retains its pre-rerank fused score, and
the failed candidates appear in the final ranking in pre-rerank fused-score
order. -/
theorem crossEncoder_partial_degradation (backend : Nat → Option ℚ)
    (cands : List FusedCandidate) :
    (crossEncoderRerank backend cands).Perm
      (cands.map (crossEncoderUpdate backend)) ∧
    (∀ f ∈ crossEncoderRerank backend cands,
      (∀ s, backend f.factId = some s → f.finalScore = s) ∧
      (backend f.factId = none → f.finalScore = f.fusedScore)) ∧
    ((crossEncoderRerank backend cands).filter
        (fun f => (backend f.factId).isNone)).Pairwise
      (fun a b => b.fusedScore ≤ a.fusedScore) ∧
    (crossEncoderRerank backend cands).length = cands.length := by
  have hmem : ∀ f ∈ crossEncoderRerank backend cands,
      (∀ s, backend f.factId = some s → f.finalScore = s) ∧
      (backend f.factId = none → f.finalScore = f.fusedScore) := by
    intro f hf
    rcases List.mem_map.1 ((mem_sortBy _ _ _).1 hf) with ⟨c, _, rfl⟩
    constructor
    · intro s hs
      simp only [crossEncoderUpdate] at hs ⊢
      rw [hs]
    · intro hs
      simp only [crossEncoderUpdate] at hs ⊢
      rw [hs]
  refine ⟨perm_sortBy _ _, hmem, ?_, ?_⟩
  · have hp : (crossEncoderRerank backend cands).Pairwise
        (fun a b => rankLE a b = true) :=
      pairwise_sortBy rankLE rankLE_total rankLE_trans _
    have hp2 : ((crossEncoderRerank backend cands).filter
        (fun f => (backend f.factId).isNone)).Pairwise
        (fun a b => rankLE a b = true) :=
      List.Pairwise.sublist (List.filter_sublist _) hp
    refine hp2.imp_of_mem ?_
    intro a b ha hb hab
    have ha2 := List.mem_filter.1 ha
    have hb2 := List.mem_filter.1 hb
    have haf : a.finalScore = a.fusedScore :=
      (hmem a ha2.1).2 (Option.isNone_iff_eq_none.1 (by simpa using ha2.2))
    have hbf : b.finalScore = b.fusedScore :=
      (hmem b hb2.1).2 (Option.isNone_iff_eq_none.1 (by simpa using hb2.2))
    rw [← haf, ← hbf]
    exact rankLE_finalScore a b hab
  · unfold crossEncoderRerank
    rw [(perm_sortBy _ _).length_eq, List.length_map]

/-- Witness for C7: a candidate whose backend call failed keeps its
pre-rerank fused score after the rerank call. -/
theorem crossEncoder_partial_degradation_witness :
    (crossEncoderUpdate (fun _ => none)
        ⟨1, FactType.world, 0, none, none, none, none, 5, 5⟩).finalScore
      = (crossEncoderUpdate (fun _ => none)
        ⟨1, FactType.world, 0, none, none, none, none, 5, 5⟩).fusedScore :=
  ((crossEncoder_partial_degradation (fun _ => none)
      [⟨1, FactType.world, 0, none, none, none, none, 5, 5⟩]).2.1
    _ (by simp [crossEncoderRerank, sortBy, insertSorted])).2 rfl

/-! ## Graph retrieval lemmas -/

/-- C3: given an empty seed set and a positive budget, both the BFS and the
PPR graph retrievers return an empty activation set and consume zero budget
(the PPR tolerance is non-negative, as a tolerance is). -/
theorem empty_seed_traversals (g : MemoryGraph) (budget : Nat)
    (cfg : PPRConfig) (hb : 0 < budget) (ht : 0 ≤ cfg.tol) :
    bfsTraverse g [] budget = [] ∧ bfsConsumed g [] budget = 0 ∧
    (pprTraverse g cfg [] budget).1 = [] ∧
    (pprTraverse g cfg [] budget).2 = 0 := by
  obtain ⟨n, rfl⟩ : ∃ n, budget = n + 1 := ⟨budget - 1, by omega⟩
  have hbfs : bfsTraverse g [] (n + 1) = [] := by
    simp [bfsTraverse, bfsLoop, roundContribs, upsertAll]
  have hppr : pprTraverse g cfg [] (n + 1) = ([], 0) := by
    simp [pprTraverse, pprLoop, pprStep, uniformRestart, upsertAll, scoreDiff,
      ht]
  exact ⟨hbfs, by simp [bfsConsumed, hbfs], by rw [hppr], by rw [hppr]⟩

/-- Witness for C3 on a concrete infinite-path graph with budget 3. -/
theorem empty_seed_traversals_witness :
    bfsTraverse ⟨fun v => [(v + 1, 1)]⟩ [] 3 = [] ∧
    bfsConsumed ⟨fun v => [(v + 1, 1)]⟩ [] 3 = 0 ∧
    (pprTraverse ⟨fun v => [(v + 1, 1)]⟩ ⟨1, 1⟩ [] 3).1 = [] ∧
    (pprTraverse ⟨fun v => [(v + 1, 1)]⟩ ⟨1, 1⟩ [] 3).2 = 0 :=
  empty_seed_traversals ⟨fun v => [(v + 1, 1)]⟩ 3 ⟨1, 1⟩ (by decide) (by decide)

theorem mem_expandOnce_left (g : MemoryGraph) (l : List Nat) :
    ∀ a ∈ l, a ∈ expandOnce g l := by
  intro a ha
  unfold expandOnce
  exact List.mem_dedup.2 (List.mem_append_left _ ha)

theorem mem_expandOnce_edge (g : MemoryGraph) (l : List Nat) (u k : Nat)
    (hu : u ∈ l) (hk : k ∈ keysOf (g.neighbors u)) :
    k ∈ expandOnce g l := by
  unfold expandOnce
  refine List.mem_dedup.2 (List.mem_append_right _ ?_)
  exact List.mem_flatten.2 ⟨keysOf (g.neighbors u),
    List.mem_map.2 ⟨u, hu, rfl⟩, hk⟩

theorem reachClosure_mono (g : MemoryGraph) (seeds : List Nat) {r s : Nat}
    (h : r ≤ s) : ∀ a ∈ reachClosure g seeds r, a ∈ reachClosure g seeds s := by
  induction s with
  | zero =>
      intro a ha
      have hr : r = 0 := by omega
      subst hr
      exact ha
  | succ k ih =>
      intro a ha
      by_cases hr : r = k + 1
      · subst hr; exact ha
      · have hrk : r ≤ k := by omega
        exact mem_expandOnce_left g _ a (ih hrk a ha)

theorem roundContribs_keys (g : MemoryGraph) (frontier blocked : List Nat) :
    ∀ k ∈ keysOf (roundContribs g frontier blocked),
      k ∉ blocked ∧ ∃ u ∈ frontier, k ∈ keysOf (g.neighbors u) := by
  intro k hk
  unfold roundContribs at hk
  rcases (mem_upsertAll _ _ _ _).1 hk with h | h
  · simp [keysOf] at h
  · unfold keysOf at h
    rcases List.mem_map.1 h with ⟨p, hp, rfl⟩
    rcases List.mem_filter.1 hp with ⟨hpf, hpp⟩
    refine ⟨by simpa using hpp, ?_⟩
    rcases List.mem_flatten.1 hpf with ⟨lp, hlp, hplp⟩
    rcases List.mem_map.1 hlp with ⟨u, hu, rfl⟩
    exact ⟨u, hu, List.mem_map.2 ⟨p, hplp, rfl⟩⟩

theorem roundContribs_keys_nodup (g : MemoryGraph)
    (frontier blocked : List Nat) :
    (keysOf (roundContribs g frontier blocked)).Nodup := by
  apply nodup_upsertAll
  simp [keysOf]

theorem nodup_subset_dedup_length {l1 l2 : List Nat}
    (h1 : l1.Nodup) (h2 : ∀ a ∈ l1, a ∈ l2) :
    l1.length ≤ l2.dedup.length := by
  calc l1.length = l1.toFinset.card := (List.toFinset_card_of_nodup h1).symm
    _ ≤ l2.toFinset.card := by
        apply Finset.card_le_card
        intro a ha
        exact List.mem_toFinset.2 (h2 a (List.mem_toFinset.1 ha))
    _ = l2.dedup.length := List.card_toFinset l2

theorem bfsLoop_invariant (g : MemoryGraph) (seeds : List Nat) (budget : Nat) :
    ∀ fuel frontier blocked act r,
      act.length ≤ budget →
      r ≤ act.length →
      (keysOf act).Nodup →
      (∀ k ∈ keysOf act, k ∈ blocked) →
      (∀ k ∈ frontier, k ∈ reachClosure g seeds r) →
      (∀ k ∈ keysOf act, k ∈ reachClosure g seeds r) →
      (bfsLoop g budget fuel frontier blocked act).length ≤ budget ∧
      (keysOf (bfsLoop g budget fuel frontier blocked act)).Nodup ∧
      (∀ k ∈ keysOf (bfsLoop g budget fuel frontier blocked act),
        k ∈ reachClosure g seeds
          (bfsLoop g budget fuel frontier blocked act).length) := by
  intro fuel
  induction fuel with
  | zero =>
      intro frontier blocked act r h1 h2 h3 h4 h5 h6
      exact ⟨h1, h3,
        fun k hk => reachClosure_mono g seeds h2 k (h6 k hk)⟩
  | succ fuel ih =>
      intro frontier blocked act r h1 h2 h3 h4 h5 h6
      simp only [bfsLoop]
      by_cases hne :
        (roundContribs g frontier blocked).take (budget - act.length) = []
      · rw [if_pos hne]
        exact ⟨h1, h3,
          fun k hk => reachClosure_mono g seeds h2 k (h6 k hk)⟩
      · rw [if_neg hne]
        have hsub : ∀ k ∈ keysOf
            ((roundContribs g frontier blocked).take (budget - act.length)),
            k ∈ keysOf (roundContribs g frontier blocked) := by
          intro k hk
          unfold keysOf at hk ⊢
          exact List.mem_map.2 (
            match List.mem_map.1 hk with
            | ⟨p, hp, he⟩ => ⟨p, List.take_subset _ _ hp, he⟩)
        have hnewlen :
            ((roundContribs g frontier blocked).take
              (budget - act.length)).length ≤ budget - act.length := by
          rw [List.length_take]
          omega
        have hnewpos : 0 <
            ((roundContribs g frontier blocked).take
              (budget - act.length)).length :=
          List.length_pos.2 hne
        apply ih _ _ _ (r + 1)
        · rw [List.length_append]
          omega
        · rw [List.length_append]
          omega
        · unfold keysOf
          rw [List.map_append]
          apply List.Nodup.append h3
          · exact List.Nodup.sublist
              (List.Sublist.map _ (List.take_sublist _ _))
              (roundContribs_keys_nodup g frontier blocked)
          · intro a ha hb
            exact (roundContribs_keys g frontier blocked a
              (hsub a hb)).1 (h4 a ha)
        · intro k hk
          unfold keysOf at hk
          rw [List.map_append] at hk
          rcases List.mem_append.1 hk with hk | hk
          · exact List.mem_append_left _ (h4 k hk)
          · exact List.mem_append_right _ hk
        · intro k hk
          rcases (roundContribs_keys g frontier blocked k (hsub k hk)).2
            with ⟨u, hu, hku⟩
          exact mem_expandOnce_edge g _ u k (h5 u hu) hku
        · intro k hk
          unfold keysOf at hk
          rw [List.map_append] at hk
          rcases List.mem_append.1 hk with hk | hk
          · exact mem_expandOnce_left g _ k (h6 k hk)
          · rcases (roundContribs_keys g frontier blocked k (hsub k hk)).2
              with ⟨u, hu, hku⟩
            exact mem_expandOnce_edge g _ u k (h5 u hu) hku

theorem pprStep_keys_nodup (g : MemoryGraph) (cfg : PPRConfig)
    (seeds : List Nat) (cur : List (Nat × ℚ)) :
    (keysOf (pprStep g cfg seeds cur)).Nodup := by
  unfold pprStep
  apply nodup_upsertAll
  apply nodup_upsertAll
  simp [keysOf]

theorem pprStep_keys_reach (g : MemoryGraph) (cfg : PPRConfig)
    (seeds : List Nat) (cur : List (Nat × ℚ)) (r : Nat)
    (hcur : ∀ k ∈ keysOf cur, k ∈ reachClosure g seeds r) :
    ∀ k ∈ keysOf (pprStep g cfg seeds cur),
      k ∈ reachClosure g seeds (r + 1) := by
  intro k hk
  unfold pprStep at hk
  rcases (mem_upsertAll _ _ _ _).1 hk with h | h
  · rcases (mem_upsertAll _ _ _ _).1 h with h | h
    · simp [keysOf] at h
    · unfold keysOf at h
      rcases List.mem_map.1 h with ⟨p, hp, rfl⟩
      rcases List.mem_flatten.1 hp with ⟨lp, hlp, hplp⟩
      rcases List.mem_map.1 hlp with ⟨q, hq, rfl⟩
      unfold pushFrom at hplp
      dsimp only at hplp
      split at hplp
      · simp at hplp
      · rcases List.mem_map.1 hplp with ⟨e, he, rfl⟩
        have hq1 : q.1 ∈ keysOf cur := List.mem_map.2 ⟨q, hq, rfl⟩
        exact mem_expandOnce_edge g _ q.1 e.1 (hcur q.1 hq1)
          (List.mem_map.2 ⟨e, he, rfl⟩)
  · unfold uniformRestart keysOf at h
    rw [List.map_map] at h
    rcases List.mem_map.1 h with ⟨s, hs, rfl⟩
    exact mem_expandOnce_left g _ s
      (reachClosure_mono g seeds (Nat.zero_le r) s hs)

theorem pprLoop_spec (g : MemoryGraph) (cfg : PPRConfig) (seeds : List Nat) :
    ∀ fuel cur r,
      (keysOf cur).Nodup →
      (∀ k ∈ keysOf cur, k ∈ reachClosure g seeds r) →
      (pprLoop g cfg seeds fuel cur).2 ≤ fuel ∧
      (keysOf (pprLoop g cfg seeds fuel cur).1).Nodup ∧
      (∀ k ∈ keysOf (pprLoop g cfg seeds fuel cur).1,
        k ∈ reachClosure g seeds (r + (pprLoop g cfg seeds fuel cur).2)) := by
  intro fuel
  induction fuel with
  | zero =>
      intro cur r hnd hsub
      exact ⟨le_refl 0, hnd, fun k hk => hsub k hk⟩
  | succ fuel ih =>
      intro cur r hnd hsub
      simp only [pprLoop]
      by_cases hc : scoreDiff (pprStep g cfg seeds cur) cur ≤ cfg.tol
      · rw [if_pos hc]
        exact ⟨Nat.zero_le _, hnd, fun k hk => hsub k hk⟩
      · rw [if_neg hc]
        rcases ih (pprStep g cfg seeds cur) (r + 1)
          (pprStep_keys_nodup g cfg seeds cur)
          (pprStep_keys_reach g cfg seeds cur r hsub) with ⟨hle, hnd2, hsub2⟩
        refine ⟨by omega, hnd2, fun k hk => ?_⟩
        have := hsub2 k hk
        have harith : r + 1 + (pprLoop g cfg seeds fuel
            (pprStep g cfg seeds cur)).2
            = r + ((pprLoop g cfg seeds fuel (pprStep g cfg seeds cur)).2 + 1) := by
          omega
        rw [harith] at this
        exact this

theorem uniformRestart_keys (seeds : List Nat) (mass : ℚ) :
    keysOf (uniformRestart seeds mass) = seeds.dedup := by
  unfold uniformRestart keysOf
  rw [List.map_map]
  have h : ∀ s ∈ seeds.dedup,
      (Prod.fst ∘ fun s => (s, mass / (seeds.dedup.length : ℚ))) s = id s :=
    fun s _ => rfl
  rw [List.map_congr_left h, List.map_id]

/-- C4: both graph-retrieval strategies respect the budget strictly (BFS
visits at most `budget` nodes, PPR runs at most `budget` iterations — both
are total functions, so neither runs unbounded), and each strategy's
`total_activated` count is a count of distinct node identifiers that never
exceeds the number of distinct nodes reachable from the seed set within the
consumed budget. -/
theorem graph_budget_and_activation (g : MemoryGraph) (seeds : List Nat)
    (budget : Nat) (cfg : PPRConfig) :
    bfsConsumed g seeds budget ≤ budget ∧
    (keysOf (bfsTraverse g seeds budget)).Nodup ∧
    bfsTotalActivated g seeds budget ≤
      (reachClosure g seeds (bfsConsumed g seeds budget)).dedup.length ∧
    (pprTraverse g cfg seeds budget).2 ≤ budget ∧
    (keysOf (pprTraverse g cfg seeds budget).1).Nodup ∧
    pprTotalActivated g cfg seeds budget ≤
      (reachClosure g seeds
        (pprTraverse g cfg seeds budget).2).dedup.length := by
  have hbfs := bfsLoop_invariant g seeds budget budget seeds.dedup
    seeds.dedup [] 0 (Nat.zero_le _) (le_refl 0) List.nodup_nil
    (by intro k hk; simp [keysOf] at hk)
    (fun k hk => hk)
    (by intro k hk; simp [keysOf] at hk)
  have hppr := pprLoop_spec g cfg seeds budget (uniformRestart seeds 1) 0
    (by rw [uniformRestart_keys]; exact List.nodup_dedup seeds)
    (by rw [uniformRestart_keys]; exact fun k hk => hk)
  rcases hbfs with ⟨hb1, hb2, hb3⟩
  rcases hppr with ⟨hp1, hp2, hp3⟩
  refine ⟨hb1, hb2, ?_, hp1, hp2, ?_⟩
  · have hl : bfsTotalActivated g seeds budget
        = (keysOf (bfsTraverse g seeds budget)).length := by
      unfold bfsTotalActivated keysOf
      rw [List.length_map]
    rw [hl]
    exact nodup_subset_dedup_length hb2 hb3
  · have hl : pprTotalActivated g cfg seeds budget
        = (keysOf (pprTraverse g cfg seeds budget).1).length := by
      unfold pprTotalActivated keysOf
      rw [List.length_map]
    rw [hl]
    refine nodup_subset_dedup_length hp2 ?_
    intro a ha
    have := hp3 a ha
    simpa using this

/-- Witness for C4: the budget bound evaluated on a concrete infinite-path
graph — BFS from seed 0 with budget 3 consumes at most 3. -/
theorem graph_budget_and_activation_witness :
    bfsConsumed ⟨fun v => [(v + 1, 1)]⟩ [0] 3 ≤ 3 :=
  (graph_budget_and_activation ⟨fun v => [(v + 1, 1)]⟩ [0] 3 ⟨1, 1⟩).1

end Hindsight

namespace MemoraCli

/-! ## CLI client theorems -/

theorem make_api_request_cases (m : String) (o : HttpOutcome) :
    (∃ d, make_api_request m o = Except.ok d) ∨
    make_api_request m o = Except.error 1 := by
  unfold make_api_request
  by_cases hm : methodOk m = true
  · rw [if_pos hm]
    cases o with
    | connectError => exact Or.inr rfl
    | timeout => exact Or.inr rfl
    | otherError => exact Or.inr rfl
    | response s b =>
        dsimp only
        by_cases h2 : is2xx s = true
        · rw [if_pos h2]
          cases b with
          | none => exact Or.inr rfl
          | some data =>
              cases hsg : successGate data with
              | proceed => exact Or.inl ⟨data, by simp [hsg]⟩
              | exitOne => exact Or.inr (by simp [hsg])
        · rw [if_neg h2]
          exact Or.inr rfl
  · rw [if_neg hm]
    exact Or.inr rfl

/-- C9: `make_api_request` either returns the decoded JSON body of a 2xx
response that passes the success-field check, or exits with code 1; every
error exit carries code 1, and an unsupported method, a connection failure, a
timeout, a non-2xx status and a payload carrying a falsy `success` field all
exit with code 1 rather than returning. -/
theorem make_api_request_spec (m : String) (o : HttpOutcome) :
    (∀ d, make_api_request m o = Except.ok d →
      methodOk m = true ∧ ∃ s, o = HttpOutcome.response s (some d) ∧
        is2xx s = true ∧ successGate d = SuccessCheck.proceed) ∧
    (∀ e, make_api_request m o = Except.error e → e = 1) ∧
    (methodOk m = false → make_api_request m o = Except.error 1) ∧
    (o = HttpOutcome.connectError → make_api_request m o = Except.error 1) ∧
    (o = HttpOutcome.timeout → make_api_request m o = Except.error 1) ∧
    (∀ s b, o = HttpOutcome.response s b → is2xx s = false →
      make_api_request m o = Except.error 1) ∧
    (∀ s fields v, o = HttpOutcome.response s (some (Json.obj fields)) →
      lookupField "success" fields = some v → truthy v = false →
      make_api_request m o = Except.error 1) := by
  refine ⟨?_, ?_, ?_, ?_, ?_, ?_, ?_⟩
  · intro d h
    unfold make_api_request at h
    by_cases hm : methodOk m = true
    · rw [if_pos hm] at h
      cases o with
      | connectError => simp at h
      | timeout => simp at h
      | otherError => simp at h
      | response s b =>
          dsimp only at h
          by_cases h2 : is2xx s = true
          · rw [if_pos h2] at h
            cases b with
            | none => simp at h
            | some data =>
                cases hsg : successGate data with
                | proceed =>
                    simp [hsg] at h
                    subst h
                    exact ⟨hm, s, rfl, h2, hsg⟩
                | exitOne => simp [hsg] at h
          · rw [if_neg h2] at h
            simp at h
    · rw [if_neg hm] at h
      simp at h
  · intro e h
    rcases make_api_request_cases m o with ⟨d, hd⟩ | hd
    · rw [hd] at h
      simp at h
    · rw [hd] at h
      exact (Except.error.inj h).symm
  · intro hm
    unfold make_api_request
    rw [if_neg (by simp [hm])]
  · intro h
    subst h
    unfold make_api_request
    by_cases hm : methodOk m = true
    · rw [if_pos hm]
    · rw [if_neg hm]
  · intro h
    subst h
    unfold make_api_request
    by_cases hm : methodOk m = true
    · rw [if_pos hm]
    · rw [if_neg hm]
  · intro s b h hf
    subst h
    unfold make_api_request
    by_cases hm : methodOk m = true
    · rw [if_pos hm]
      dsimp only
      rw [if_neg (by simp [hf])]
    · rw [if_neg hm]
  · intro s fields v h hl htr
    subst h
    unfold make_api_request
    by_cases hm : methodOk m = true
    · rw [if_pos hm]
      dsimp only
      by_cases h2 : is2xx s = true
      · rw [if_pos h2]
        have hsg : successGate (Json.obj fields) = SuccessCheck.exitOne := by
          unfold successGate
          dsimp only
          rw [hl]
          dsimp only
          rw [if_neg (by simp [htr])]
        simp [hsg]
      · rw [if_neg h2]
    · rw [if_neg hm]

/-- Witness for C9: a connection failure at a supported method exits with
code 1. -/
theorem make_api_request_spec_witness :
    make_api_request "GET" HttpOutcome.connectError = Except.error 1 :=
  (make_api_request_spec "GET" HttpOutcome.connectError).2.2.2.1 rfl

/-- C10: a `put-files` call on a single existing file whose lowercased
extension is neither .txt nor .md exits with code 0 (after the warning)
without issuing an API request; on a directory, every collected file has a
.txt or .md extension, and when the glob collects nothing the command exits
with code 0 without issuing an API request. -/
theorem put_files_boundary :
    (∀ name,
      ¬(lowerStr (pySuffix name) = ".txt" ∨ lowerStr (pySuffix name) = ".md") →
      put_files_run (FsEntry.file name) = (some 0, 0)) ∧
    (∀ files fs,
      put_files_collect (FsEntry.dir files) = PutFilesPhase.proceed fs →
      ∀ f ∈ fs, f.endsWith ".txt" = true ∨ f.endsWith ".md" = true) ∧
    (∀ files,
      files.filter (fun n => n.endsWith ".txt") ++
        files.filter (fun n => n.endsWith ".md") = [] →
      put_files_run (FsEntry.dir files) = (some 0, 0)) := by
  refine ⟨?_, ?_, ?_⟩
  · intro name h
    unfold put_files_run put_files_collect
    dsimp only
    rw [if_neg h]
  · intro files fs h f hf
    unfold put_files_collect at h
    dsimp only at h
    by_cases hc : files.filter (fun n => n.endsWith ".txt") ++
        files.filter (fun n => n.endsWith ".md") = []
    · rw [if_pos hc] at h
      simp at h
    · rw [if_neg hc] at h
      have hfs : fs = files.filter (fun n => n.endsWith ".txt") ++
          files.filter (fun n => n.endsWith ".md") :=
        (PutFilesPhase.proceed.inj h).symm
      subst hfs
      rcases List.mem_append.1 hf with hf | hf
      · exact Or.inl (by simpa using (List.mem_filter.1 hf).2)
      · exact Or.inr (by simpa using (List.mem_filter.1 hf).2)
  · intro files h
    unfold put_files_run put_files_collect
    dsimp only
    rw [if_pos h]

/-- Witness for C10: a .png file is skipped with exit code 0 and no API
request. -/
theorem put_files_boundary_witness :
    put_files_run (FsEntry.file "photo.png") = (some 0, 0) :=
  put_files_boundary.1 "photo.png" (by decide)

end MemoraCli
